import Mathlib

set_option maxHeartbeats 1000000
set_option linter.unnecessarySeqFocus false
set_option linter.unnecessarySimpa false
set_option linter.unusedTactic false

/-!
Shallow embedding of `src/Search.py`: a proximity search over a text document,
driven by regular expressions.  Query tokenization, clause assembly, lemma
expansion and regex-string construction are embedded as pure functions over
`List Char`.  The regex engine (Python's `re` standard library) is abstracted
as a `Matcher` function `pos → endpos → Option (start, end)`; an executable
model of `re`'s behaviour on the specific pattern family the program builds
(`(^|[boundary])word[s]*($|[boundary])`) is provided for concrete instances.
Python integer arithmetic is modelled with `Int` where values can go negative
(KWIC offsets, trimmed hit positions) and `Nat` where they cannot
(match offsets returned by `re`).
-/

/-- A placeholder character used as the default of total list lookups; every
lookup in the development is guarded so the default is never the value read
on the Python-reachable states (Python would raise IndexError there). -/
def nullChar : Char := Char.ofNat 0

-- ==== Configuration constants, Search.py lines 10-14 ====

def MATCH_WINDOW : Nat := 500
def PRECEDING_CHARS : Int := 20
def FOLLOWING_CHARS : Int := 30
def MAX_KWIC_CHARS : Nat := 100
def MAX_HITS : Nat := 8

-- ==== Token and Token.finalizeExtraction, Search.py lines 18-132 ====

/-- `Token`, Search.py lines 24-29: the extracted term text plus literal-string
markers. -/
structure Token where
  token : List Char
  isLiteral : Bool
  startSpecial : Option Char
  endSpecial : Option Char
deriving DecidableEq, Repr

/-- `removeStartOrEndChars = "'.:"`, Search.py line 73. -/
def removeStartOrEndChars : List Char := "'.:".data

/-- The front-trimming loop of `Token.finalizeExtraction`, Search.py lines
79-108.  Each iteration inspects `token[startChar]`; the stripping branches
remove `token[0]` (Python `token[1:]`) with `startChar -= 1; startChar += 1`
netting to an unchanged index, the paired-quote branch removes the first and
last character (`token[1:len-1]`) with a net `startChar += 1`, and the
remaining branches stop.  Every continuing iteration strictly decreases
`len(token) - startChar` (initially `len(token)`), so fuel
`len(token) + 1` makes the recursion equal to the unbounded Python loop. -/
def frontLoopAux (tok : Token) (startChar : Nat) : Nat → Token
  | 0 => tok
  | fuel + 1 =>
    if startChar < tok.token.length then
      let c := tok.token.getD startChar nullChar
      if c = '(' then
        if tok.token.getLastD nullChar = ')' then tok
        else frontLoopAux { tok with token := tok.token.drop 1 } startChar fuel
      else if c = '"' then
        if tok.token.getLastD nullChar = '"' then
          let tok' := { tok with
            isLiteral := true
            startSpecial := some '"'
            endSpecial := some '"'
            token := (tok.token.drop 1).take (tok.token.length - 2) }
          frontLoopAux tok' (startChar + 1) fuel
        else { tok with
          isLiteral := true
          startSpecial := some '"'
          token := tok.token.drop 1 }
      else if c ∈ removeStartOrEndChars then
        frontLoopAux { tok with token := tok.token.drop 1 } startChar fuel
      else tok
    else tok

/-- The back-trimming loop of `Token.finalizeExtraction`, Search.py lines
110-125.  `endChar` starts at `len(token) - 1`; the stripping branches
truncate the token to `token[0:endChar]` and decrement `endChar`.  `endChar`
strictly decreases each continuing iteration, so fuel `len(token) + 1`
makes the recursion equal to the unbounded Python loop. -/
def backLoopAux (tok : Token) (endChar : Int) : Nat → Token
  | 0 => tok
  | fuel + 1 =>
    if ¬ tok.isLiteral ∧ 0 ≤ endChar then
      let c := tok.token.getD endChar.toNat nullChar
      if c = ')' then
        if '(' ∈ tok.token then tok
        else backLoopAux { tok with token := tok.token.take endChar.toNat } (endChar - 1) fuel
      else if c = '"' ∨ c ∈ removeStartOrEndChars then
        backLoopAux { tok with token := tok.token.take endChar.toNat } (endChar - 1) fuel
      else tok
    else tok

/-- `Token.finalizeExtraction`, Search.py lines 42-132.  In-literal tokens only
check for a closing quote; otherwise the front and back trimming loops run and
an exact-case `AND` / `OR` result is erased to the empty token. -/
def finalizeExtraction (inLiteral : Bool) (tok : Token) : Token :=
  if inLiteral then
    let t1 := { tok with isLiteral := true }
    if t1.token.getLastD nullChar = '"' then
      { t1 with endSpecial := some '"', token := t1.token.take (t1.token.length - 1) }
    else t1
  else
    let t1 := frontLoopAux tok 0 (tok.token.length + 1)
    let t2 := backLoopAux t1 ((t1.token.length : Int) - 1) (t1.token.length + 1)
    let t3 := if t2.token = "AND".data then { t2 with token := [] } else t2
    if t3.token = "OR".data then { t3 with token := [] } else t3

-- ==== Tokenizer, Search.py lines 156-211 ====

/-- `Tokenizer.spaces = " ,;\n\r\t"`, Search.py line 162. -/
def spaces : List Char := " ,;\n\r\t".data

/-- The mutable scanning state of `Tokenizer.tokenize`: the token under
construction, the in-literal flag, and the tokens emitted so far. -/
structure TokState where
  curr : Option Token
  inLiteral : Bool
  toks : List Token
deriving Repr

/-- One character step of `Tokenizer.tokenize`, Search.py lines 181-204.
A separator finalizes the pending token (updating the in-literal mode and
dropping empty results); any other character extends or starts a token. -/
def tokStep (st : TokState) (c : Char) : TokState :=
  if c ∈ spaces then
    match st.curr with
    | some tk =>
      let f := finalizeExtraction st.inLiteral tk
      let inLit' := if f.isLiteral then (if f.endSpecial = some '"' then false else true)
                    else false
      let toks' := if 0 < f.token.length then st.toks ++ [f] else st.toks
      ⟨none, inLit', toks'⟩
    | none => st
  else
    match st.curr with
    | some tk => { st with curr := some { tk with token := tk.token ++ [c] } }
    | none => { st with curr := some ⟨[c], false, none, none⟩ }

/-- The end-of-input close-out of `Tokenizer.tokenize`, Search.py lines
206-209. -/
def tokenizeEnd (st : TokState) : List Token :=
  match st.curr with
  | some tk =>
    let f := finalizeExtraction st.inLiteral tk
    if 0 < f.token.length then st.toks ++ [f] else st.toks
  | none => st.toks

/-- `Tokenizer.tokenize`, Search.py lines 167-211. -/
def tokenize (searchExpression : List Char) : List Token :=
  tokenizeEnd (searchExpression.foldl tokStep ⟨none, false, []⟩)

-- ==== Lemmatizer, Search.py lines 234-268 ====

/-- `Lemmatizer.expandEquivalencies`, Search.py lines 243-268.  Note the
Python 2 string literal `"(s|§)"` contains a literal backslash-u escape
(Python 2 `str` literals do not interpret `\u`), embedded here verbatim. -/
def expandEquivalencies (term : List Char) : List Char :=
  if term.length < 2 then term
  else
    let t1 := if term.getD 0 nullChar = 's' ∧ (term.getD 1 nullChar).isDigit then
                "(s|\\u00a7)".data ++ term.drop 1
              else term
    let t2 := if t1.getD 0 nullChar = 'p' ∧ (t1.getD 1 nullChar).isDigit then
                "(p|\\u00b6)".data ++ t1.drop 1
              else t1
    if t2.getLastD nullChar = 's' then t2.take (t2.length - 1) ++ "[s]*".data
    else if (t2.getLastD nullChar).isAlpha then t2 ++ "[s]*".data
    else t2

/-- Python 2.7 `re.escape`: alphanumeric characters are kept, every other
character is prefixed with a backslash (NUL becomes `\000`). -/
def reEscape (t : List Char) : List Char :=
  (t.map (fun c =>
    if c.isAlphanum then [c]
    else if c = nullChar then "\\000".data
    else ['\\', c])).flatten

-- ==== Regex-string construction, Search.py lines 330 and 363-380 ====

/-- `SearchExecution.wordBoundaries`, the raw pattern string
`r'[ .,:;\n\r\t\(\)\[\]]'` of Search.py line 330 (single backslashes are
literal characters of the pattern string). -/
def wordBoundaries : List Char := "[ .,:;\\n\\r\\t\\(\\)\\[\\]]".data

/-- The per-synonym alternation loop of `SearchExecution.executeSearch`,
Search.py lines 366-377: each expanded synonym is escaped, lemmatized and
wrapped in left/right word-boundary groups, joined with `|`. -/
def clauseRegexAux (syns : List (List Char)) (isFirst : Bool) (regex : List Char) : List Char :=
  match syns with
  | [] => regex
  | syn :: rest =>
    let lemmatized := expandEquivalencies (reEscape syn)
    let regex1 := if isFirst then regex else regex ++ "|".data
    clauseRegexAux rest false
      (regex1 ++ "(^|".data ++ wordBoundaries ++ ")".data ++ lemmatized ++
       "($|".data ++ wordBoundaries ++ ")".data)

/-- The pattern string compiled for one AND-clause, Search.py lines 365-377,
parametrized by the synonym table lookup (`Synonyms.expandTerm`, an external
table loaded from a data file; it defaults to the identity singleton). -/
def clauseRegex (expandTerm : List Char → List (List Char)) (clause : List Char) : List Char :=
  clauseRegexAux (expandTerm (clause.map Char.toLower)) true []

-- ==== HitPosition and trimming, Search.py lines 224-231 and 407-412 ====

/-- `HitPosition`, Search.py lines 224-230.  Python field names `start` and
`end` (`end` is a Lean keyword, rendered `stop`).  `Int`-valued because the
trim step can decrement an offset. -/
structure HitPosition where
  start : Int
  stop : Int
deriving DecidableEq, Repr

/-- The boundary-trim applied to a raw regex match interval, Search.py lines
409-412 (anchor) and 464-467 (other clauses): increment `start` unless it is
0; decrement `end` unless it equals `len(content) - 1`. -/
def trimHitPosition (contentLen : Nat) (ms me : Nat) : HitPosition :=
  let s : Int := if (ms : Int) ≠ 0 then (ms : Int) + 1 else (ms : Int)
  let e : Int := if (me : Int) ≠ (contentLen : Int) - 1 then (me : Int) - 1 else (me : Int)
  { start := s, stop := e }

-- ==== The matcher abstraction ====

/-- A compiled regex matcher, abstracting Python's
`compiled.search(content, pos, endpos)`: the content is baked in, the
arguments are `pos` and `endpos`, the result the raw match interval.
Python's two-argument `search(content, pos)` is `searchIn pos len(content)`. -/
def Matcher : Type := Nat → Nat → Option (Nat × Nat)

/-- A matcher is well-formed when it behaves like `re`: a reported match lies
inside the searched range. -/
def MatcherWF (m : Matcher) : Prop :=
  ∀ pos ep s e, m pos ep = some (s, e) → pos ≤ s ∧ s ≤ e ∧ e ≤ ep

/-- `SearchMatcher`, Search.py lines 213-220: the regex string paired with its
compiled matcher. -/
structure SearchMatcher where
  regex : List Char
  matcher : Matcher

-- ==== The proximity search loop, Search.py lines 337-489 ====

/-- The candidate distance of Search.py lines 446-449: gap to the anchor
match, directional. -/
def matchDistance (aS aE : Nat) (om : Nat × Nat) : Int :=
  if om.1 < aS then (aS : Int) - (om.2 : Int) else (om.1 : Int) - (aE : Int)

/-- The closest-candidate loop of Search.py lines 436-455: scan the clause's
matches inside the bracket (restarting after each match end + 1) and keep the
first candidate of minimal distance.  Each continuing iteration moves
`nextStart` past a match end, which for a well-formed matcher strictly
increases it while it stays at most `endBracket + 1`, so fuel
`len(content) + 2` (with `endBracket ≤ len(content)`) makes the recursion
equal to the unbounded Python loop. -/
def bestLoop (m : Matcher) (aS aE eB nextStart : Nat) (best : Option (Nat × Nat))
    (minDistance : Int) : Nat → Option (Nat × Nat)
  | 0 => best
  | fuel + 1 =>
    match m nextStart eB with
    | none => best
    | some om =>
      let d := matchDistance aS aE om
      if d < minDistance then bestLoop m aS aE eB (om.2 + 1) (some om) d fuel
      else bestLoop m aS aE eB (om.2 + 1) best minDistance fuel

/-- The sequence of candidate matches the loop of Search.py lines 436-455
enumerates: all matches of the clause confined to the bracket, each found
from one past the previous match's end. -/
def enumCands (m : Matcher) (eB nextStart : Nat) : Nat → List (Nat × Nat)
  | 0 => []
  | fuel + 1 =>
    match m nextStart eB with
    | none => []
    | some om => om :: enumCands m eB (om.2 + 1) fuel

/-- The search bracket of Search.py lines 417-424: the window around the
anchor match, clipped to start no earlier than 0 and the scan cursor, and to
end no later than the content length. -/
def windowBracket (contentLen scanStart mS mE : Nat) : Nat × Nat :=
  let sb1 : Int := (mS : Int) - (MATCH_WINDOW : Int)
  let sb2 : Int := if sb1 < 0 then 0 else sb1
  let sb3 : Int := if sb2 < (scanStart : Int) then (scanStart : Int) else sb2
  let eb1 : Nat := mE + MATCH_WINDOW
  let eb2 : Nat := if eb1 ≥ contentLen then contentLen else eb1
  (sb3.toNat, eb2)

/-- The per-clause loop of Search.py lines 430-473: skip the anchor clause,
find each remaining clause's best candidate in the bracket, record its trimmed
span and push `lastPosition` forward; `none` models the `failed = True` exit
of lines 457-459. -/
def clausesLoop (contentLen aS aE sB eB : Nat) (highlights : List HitPosition)
    (lastPosition : Nat) (skipFirst : Bool) : List SearchMatcher → Option (List HitPosition × Nat)
  | [] => some (highlights, lastPosition)
  | c :: rest =>
    if skipFirst then clausesLoop contentLen aS aE sB eB highlights lastPosition false rest
    else
      match bestLoop c.matcher aS aE eB sB none 999999 (contentLen + 2) with
      | none => none
      | some bm =>
        clausesLoop contentLen aS aE sB eB
          (highlights ++ [trimHitPosition contentLen bm.1 bm.2])
          (if bm.2 > lastPosition then bm.2 else lastPosition) false rest

/-- Stable insertion into a list sorted by ascending `start`; models the
stable `highlights.sort(lambda x, y: cmp(x.start, y.start))` of Search.py
line 484. -/
def insertByStart (p : HitPosition) : List HitPosition → List HitPosition
  | [] => [p]
  | q :: r => if q.start < p.start then q :: insertByStart p r else p :: q :: r

/-- Stable sort of a hit's spans by ascending `start`, Search.py line 484. -/
def sortByStart : List HitPosition → List HitPosition
  | [] => []
  | p :: r => insertByStart p (sortByStart r)

/-- One iteration of the main scan loop of Search.py lines 396-487, from the
anchor search to the recorded hit: `none` when the anchor has no further
match or the window failed (both `break` in Python); otherwise the sorted
hit and the next scan cursor `lastPosition + 1`. -/
def searchStep (clauses : List SearchMatcher) (content : List Char) (scanStart : Nat) :
    Option (List HitPosition × Nat) :=
  match clauses with
  | [] => none
  | c0 :: _ =>
    match c0.matcher scanStart content.length with
    | none => none
    | some (mS, mE) =>
      let hp := trimHitPosition content.length mS mE
      let br := windowBracket content.length scanStart mS mE
      match clausesLoop content.length mS mE br.1 br.2 [hp] mE true clauses with
      | none => none
      | some (hl, lastPos) => some (sortByStart hl, lastPos + 1)

/-- The main scan loop of Search.py lines 394-487.  For well-formed matchers
every recorded hit strictly advances the scan cursor, so fuel
`len(content) + 1` makes the recursion equal to the unbounded Python loop. -/
def searchLoop (clauses : List SearchMatcher) (content : List Char) (scanStart : Nat)
    (hits : List (List HitPosition)) : Nat → List (List HitPosition)
  | 0 => hits
  | fuel + 1 =>
    if scanStart < content.length ∧ hits.length < MAX_HITS then
      match searchStep clauses content scanStart with
      | none => hits
      | some (h, ns) => searchLoop clauses content ns (hits ++ [h]) fuel
    else hits

/-- `SearchResult`, Search.py lines 493-504 (the hits plus the searched
content). -/
structure SearchResult where
  hits : List (List HitPosition)
  content : List Char

/-- The literal-consolidation pass of Search.py lines 343-357: consecutive
literal tokens merge (space-joined) into one AND-clause, other tokens become
their own clause, a trailing open literal is flushed. -/
def collectClauses : List Token → List Char → List (List Char)
  | [], currentClause => if 0 < currentClause.length then [currentClause] else []
  | tk :: rest, currentClause =>
    if tk.isLiteral then
      let cc' := if 0 < currentClause.length then currentClause ++ [' '] ++ tk.token
                 else currentClause ++ tk.token
      collectClauses rest cc'
    else
      (if 0 < currentClause.length then [currentClause] else []) ++
        [tk.token] ++ collectClauses rest []

/-- Stable insertion for the longest-first clause sort of Search.py line
361. -/
def insertDescLen (a : List Char) : List (List Char) → List (List Char)
  | [] => [a]
  | b :: r => if a.length < b.length then b :: insertDescLen a r else a :: b :: r

/-- The stable longest-first sort `andClauses.sort(lambda x, y:
cmp(len(y), len(x)))` of Search.py line 361. -/
def sortDescLen : List (List Char) → List (List Char)
  | [] => []
  | a :: r => insertDescLen a (sortDescLen r)

/-- `SearchExecution.executeSearch`, Search.py lines 337-489, parametrized by
the synonym lookup (`expandTerm`, external data) and the regex compiler
(`compile`, Python's `re.compile(..., re.IGNORECASE | re.DOTALL)` of line
380, abstracted). -/
def executeSearch (expandTerm : List Char → List (List Char))
    (compile : List Char → Matcher) (tokens : List Token) (content : List Char) :
    SearchResult :=
  let andClauses := collectClauses tokens []
  let sorted := sortDescLen andClauses
  let searchClauses := sorted.map (fun cl =>
    let r := clauseRegex expandTerm cl
    SearchMatcher.mk r (compile r))
  if searchClauses.length < 1 then ⟨[], content⟩
  else ⟨searchLoop searchClauses content 0 [] (content.length + 1), content⟩

-- ==== KWIC extraction, Search.py lines 506-545 ====

/-- Python character indexing `content[i]` for an `Int` index: negative
indices count from the end.  Out-of-range access (an IndexError in Python) is
unreachable in the guarded uses below and returns `nullChar`. -/
def pyCharAt (content : List Char) (i : Int) : Char :=
  if 0 ≤ i then content.getD i.toNat nullChar
  else content.getD ((content.length : Int) + i).toNat nullChar

/-- Python slicing `content[a:b]` for `Int` bounds: a negative bound counts
from the end of the list, then both bounds are clamped to `[0, len]`. -/
def pySliceIdx (len : Nat) (i : Int) : Nat :=
  if i < 0 then ((len : Int) + i).toNat else min i.toNat len

/-- Python slicing `content[a:b]`. -/
def pySlice (content : List Char) (a b : Int) : List Char :=
  (content.take (pySliceIdx content.length b)).drop (pySliceIdx content.length a)

/-- The walk-left loop of Search.py lines 513-515: `while startKWIC > 0 and
content[startKWIC-1] != " ": startKWIC -= 1`.  `startKWIC` decreases by one
per iteration, so fuel `startKWIC.toNat` makes the recursion equal to the
unbounded Python loop (when the fuel runs out the guard `startKWIC > 0` is
false anyway). -/
def walkLeftAux (content : List Char) (k : Int) : Nat → Int
  | 0 => k
  | fuel + 1 =>
    if 0 < k ∧ pyCharAt content (k - 1) ≠ ' ' then walkLeftAux content (k - 1) fuel
    else k

/-- The word-aligned left boundary of the KWIC excerpt, Search.py lines
513-515. -/
def walkLeft (content : List Char) (k : Int) : Int :=
  walkLeftAux content k k.toNat

/-- The walk-right loop of Search.py lines 540-541: `while endKWIC <
len(content) and content[endKWIC] != " ": endKWIC += 1`.  Fueled like
`walkLeftAux`. -/
def walkRightAux (content : List Char) (k : Int) : Nat → Int
  | 0 => k
  | fuel + 1 =>
    if k < (content.length : Int) ∧ pyCharAt content k ≠ ' ' then
      walkRightAux content (k + 1) fuel
    else k

/-- The word-aligned right boundary of the KWIC excerpt, Search.py lines
540-541. -/
def walkRight (content : List Char) (k : Int) : Int :=
  walkRightAux content k ((content.length : Int) - k).toNat

/-- The highlight-emission loop of Search.py lines 519-532: prepend the text
before each span (when the span starts past the cursor), wrap the span text in
`<<` `>>`, advance the cursor to the span end, and stop emitting once the
accumulated text exceeds `MAX_KWIC_CHARS`.  Returns the text and the final
cursor. -/
def kwicLoop (content : List Char) (hit : List HitPosition) (startKWIC : Int)
    (kwicText : List Char) : List Char × Int :=
  match hit with
  | [] => (kwicText, startKWIC)
  | h :: rest =>
    let t1 := if h.start > startKWIC then kwicText ++ pySlice content startKWIC h.start
              else kwicText
    let t2 := t1 ++ "<<".data ++ pySlice content h.start h.stop ++ ">>".data
    if t2.length > MAX_KWIC_CHARS then (t2, h.stop)
    else kwicLoop content rest h.stop t2

/-- `SearchResult.calculateKWIC`, Search.py lines 506-545.  Python indexes
`hit[0]`, so the empty-hit case (unreachable: every recorded hit is
non-empty) returns the empty excerpt. -/
def calculateKWIC (content : List Char) (hit : List HitPosition) : List Char :=
  match hit with
  | [] => []
  | h0 :: _ =>
    let startKWIC := walkLeft content (h0.start - PRECEDING_CHARS)
    let p := kwicLoop content hit startKWIC []
    let endKWIC := walkRight content (p.2 + FOLLOWING_CHARS)
    p.1 ++ pySlice content p.2 endKWIC

-- ==== Executable model of Python `re` on the generated pattern family ====
-- The program only ever compiles patterns of the shape
--   (^|[ .,:;\n\r\t\(\)\[\]])w[s]*($|[ .,:;\n\r\t\(\)\[\]])
-- (one alternative per synonym; for a single unknown synonym, exactly this
-- shape).  The functions below model, from the documented semantics of
-- Python's `re` with IGNORECASE, the search behaviour of such a pattern for
-- a literal stem `w`: leftmost match; at each position the alternation tries
-- `^` (start of string only) before a boundary character; `[s]*` is greedy
-- with backtracking; `$` matches at `endpos`.  They are used to build
-- concrete `Matcher`s for witnesses and counterexamples.

/-- The character set denoted by the word-boundary character class of
Search.py line 330. -/
def wordBoundaryChars : List Char :=
  [' ', '.', ',', ':', ';', '\n', '\r', '\t', '(', ')', '[', ']']

/-- Total indexing with `nullChar` default. -/
def charAtN (content : List Char) (i : Nat) : Char := content.getD i nullChar

/-- The slice `content[a:b]` for `Nat` bounds. -/
def sliceN (content : List Char) (a b : Nat) : List Char := (content.drop a).take (b - a)

/-- Case-insensitive equality of character lists (IGNORECASE). -/
def lowerEq (a b : List Char) : Prop := a.map Char.toLower = b.map Char.toLower

instance (a b : List Char) : Decidable (lowerEq a b) := by
  unfold lowerEq; infer_instance

/-- Length of the maximal run of `s`/`S` starting at `i`, capped at `ep`:
what the greedy `[s]*` consumes under IGNORECASE. -/
def sRunLenAux (content : List Char) (i ep : Nat) : Nat → Nat
  | 0 => 0
  | fuel + 1 =>
    if i < ep ∧ (charAtN content i).toLower = 's' then sRunLenAux content (i + 1) ep fuel + 1
    else 0

/-- Length of the maximal `[s]*` run at `i`, capped at `ep`. -/
def sRunLen (content : List Char) (i ep : Nat) : Nat := sRunLenAux content i ep (ep - i)

/-- The right boundary alternative `($|[boundary])` at position `e0` with the
search truncated at `ep`: `$` matches at `ep`; otherwise a boundary character
is consumed. -/
def tryClose (content : List Char) (e0 ep : Nat) : Option Nat :=
  if e0 = ep then some e0
  else if e0 < ep ∧ charAtN content e0 ∈ wordBoundaryChars then some (e0 + 1)
  else none

/-- Greedy backtracking over the `[s]*` repetition count: try `k` characters
of run first, then shorter runs. -/
def tryK (content : List Char) (base ep : Nat) : Nat → Option Nat
  | 0 => tryClose content base ep
  | k + 1 =>
    match tryClose content (base + (k + 1)) ep with
    | some e => some e
    | none => tryK content base ep k

/-- Match `w[s]*($|[boundary])` starting exactly at `q` (already past the left
boundary), returning the raw match end. -/
def tryCoreAt (w content : List Char) (q ep : Nat) : Option Nat :=
  if q + w.length ≤ ep ∧ lowerEq (sliceN content q (q + w.length)) w then
    tryK content (q + w.length) ep (sRunLen content (q + w.length) ep)
  else none

/-- Match the whole pattern `(^|[boundary])w[s]*($|[boundary])` starting
exactly at `p`: at position 0 the `^` alternative is tried first, otherwise a
boundary character must be consumed. -/
def tryMatchAt (w content : List Char) (p ep : Nat) : Option Nat :=
  if p = 0 then
    match tryCoreAt w content 0 ep with
    | some e => some e
    | none =>
      if 0 < ep ∧ charAtN content 0 ∈ wordBoundaryChars then tryCoreAt w content 1 ep
      else none
  else
    if p < ep ∧ charAtN content p ∈ wordBoundaryChars then tryCoreAt w content (p + 1) ep
    else none

/-- Leftmost search: try each start position from `pos` upward. -/
def reSearchAux (w content : List Char) (ep : Nat) (p : Nat) : Nat → Option (Nat × Nat)
  | 0 => none
  | fuel + 1 =>
    if p ≤ ep then
      match tryMatchAt w content p ep with
      | some e => some (p, e)
      | none => reSearchAux w content ep (p + 1) fuel
    else none

/-- `compiled.search(content, pos, endpos)` for the pattern
`(^|[boundary])w[s]*($|[boundary])`. -/
def reSearchWord (w content : List Char) (pos ep : Nat) : Option (Nat × Nat) :=
  reSearchAux w content ep pos (ep + 1 - pos)

/-- A concrete `Matcher` for stem `w` over a fixed document. -/
def mkWordMatcher (w content : List Char) : Matcher :=
  fun pos ep => reSearchWord w content pos ep

-- ==== Concrete fixtures for witnesses and counterexamples ====

/-- Test document `"a cat runs"`. -/
def doc1 : List Char := "a cat runs".data

/-- Compiled clause for query term `cat` over `doc1` (pattern string as built
by Search.py line 377, matcher modelled by `mkWordMatcher`). -/
def catSM1 : SearchMatcher :=
  SearchMatcher.mk (clauseRegex (fun t => [t]) "cat".data) (mkWordMatcher "cat".data doc1)

/-- Compiled clause for query term `zebra` over `doc1` (no matches). -/
def zebraSM1 : SearchMatcher :=
  SearchMatcher.mk (clauseRegex (fun t => [t]) "zebra".data) (mkWordMatcher "zebra".data doc1)

/-- Test document `" cat x"` (leading boundary character). -/
def doc2 : List Char := " cat x".data

/-- Compiled clause for query term `cat` over `doc2`. -/
def catSM2 : SearchMatcher :=
  SearchMatcher.mk (clauseRegex (fun t => [t]) "cat".data) (mkWordMatcher "cat".data doc2)

/-- Test document `"cat x cats"` (two candidate occurrences around an `x`
anchor). -/
def doc4 : List Char := "cat x cats".data

/-- Compiled clause for query term `cat` over `doc4`. -/
def catSM4 : SearchMatcher :=
  SearchMatcher.mk (clauseRegex (fun t => [t]) "cat".data) (mkWordMatcher "cat".data doc4)

/-- The identity synonym table (`Synonyms.expandTerm` for a term absent from
the table, Search.py lines 297-304). -/
def expandId : List Char → List (List Char) := fun t => [t]

/-- A trivial regex compiler whose matchers never match; used to instantiate
clause-independent statements. -/
def compileNone : List Char → Matcher := fun _ => fun _ _ => none

/-- The maximum `stop` offset over a hit's spans (recorded hits are
non-empty; the initial value `-1` is below every trimmed offset). -/
def maxSpanStop (h : List HitPosition) : Int :=
  h.foldl (fun acc sp => max acc sp.stop) (-1)

/-- Words joined by single spaces (the shape of a multi-word query string). -/
def joinWords : List (List Char) → List Char
  | [] => []
  | [w] => w
  | w :: ws => w ++ [' '] ++ joinWords ws

-- ==== Helper lemmas ====

/-- The scan loop never grows the hit list past `MAX_HITS`. -/
theorem searchLoop_length_le (clauses : List SearchMatcher) (content : List Char) :
    ∀ fuel scanStart hits, hits.length ≤ MAX_HITS →
      (searchLoop clauses content scanStart hits fuel).length ≤ MAX_HITS := by
  intro fuel
  induction fuel with
  | zero => intro scanStart hits h; simpa [searchLoop] using h
  | succ fuel ih =>
    intro scanStart hits h
    simp only [searchLoop]
    split
    · rename_i hg
      cases hstep : searchStep clauses content scanStart with
      | none => simpa using h
      | some p =>
        cases p with
        | mk hh ns =>
          simp only []
          exact ih ns (hits ++ [hh]) (by simpa using hg.2)
    · simpa using h

/-- An empty candidate enumeration forces the closest-candidate loop to
report no best match. -/
theorem enumCands_nil_bestLoop (m : Matcher) (aS aE eB ns : Nat) (minD : Int) :
    ∀ fuel, enumCands m eB ns fuel = [] → bestLoop m aS aE eB ns none minD fuel = none := by
  intro fuel
  cases fuel with
  | zero => intro _; rfl
  | succ f =>
    intro h
    cases hm : m ns eB with
    | none => simp only [bestLoop, hm]
    | some om =>
      simp only [enumCands, hm] at h
      exact absurd h (List.cons_ne_nil _ _)

/-- If some clause of the remaining list has no candidate match in the
bracket, the per-clause loop fails. -/
theorem clausesLoop_fail (contentLen aS aE sB eB : Nat) :
    ∀ (restL : List SearchMatcher) (hl : List HitPosition) (lp : Nat),
      (∃ c ∈ restL, enumCands c.matcher eB sB (contentLen + 2) = []) →
      clausesLoop contentLen aS aE sB eB hl lp false restL = none := by
  intro restL
  induction restL with
  | nil => intro hl lp h; simp at h
  | cons c rest ih =>
    intro hl lp h
    rcases h with ⟨c', hc', henum⟩
    rcases List.mem_cons.mp hc' with rfl | hmem
    · have hb := enumCands_nil_bestLoop c'.matcher aS aE eB sB 999999 (contentLen + 2) henum
      simp [clausesLoop, hb]
    · simp only [clausesLoop, Bool.false_eq_true, if_false]
      cases hb : bestLoop c.matcher aS aE eB sB none 999999 (contentLen + 2) with
      | none => rfl
      | some bm =>
        simp only []
        exact ih _ _ ⟨c', hmem, henum⟩

/-- C1: if, while a proximity window is being processed, some non-anchor
clause has zero matches inside the window (its candidate enumeration from the
bracket start is empty), the whole search loop stops right there and returns
exactly the hits collected from earlier windows: the failed window's partial
spans are discarded and no later anchor is examined (Search.py lines 457-459
and 475-477). -/
theorem C1_failed_window_stops_search
    (c0 : SearchMatcher) (rest : List SearchMatcher) (content : List Char)
    (scanStart : Nat) (hits : List (List HitPosition)) (fuel : Nat) (mS mE : Nat)
    (hscan : scanStart < content.length) (hhits : hits.length < MAX_HITS)
    (hanchor : c0.matcher scanStart content.length = some (mS, mE))
    (hfail : ∃ c ∈ rest,
      enumCands c.matcher (windowBracket content.length scanStart mS mE).2
        (windowBracket content.length scanStart mS mE).1 (content.length + 2) = []) :
    searchLoop (c0 :: rest) content scanStart hits (fuel + 1) = hits := by
  have hcl : clausesLoop content.length mS mE
      (windowBracket content.length scanStart mS mE).1
      (windowBracket content.length scanStart mS mE).2
      [trimHitPosition content.length mS mE] mE true (c0 :: rest) = none := by
    simp only [clausesLoop, if_true]
    exact clausesLoop_fail _ _ _ _ _ rest _ _ hfail
  have hstep : searchStep (c0 :: rest) content scanStart = none := by
    simp [searchStep, hanchor, hcl]
  simp [searchLoop, hstep, hscan, hhits]

/-- Witness for C1: query clauses `cat` and `zebra` over `"a cat runs"`; the
anchor `cat` matches but `zebra` has no match in the window, and the loop
returns the (empty) earlier-hit list. -/
theorem C1_witness : searchLoop [catSM1, zebraSM1] doc1 0 [] 11 = [] :=
  C1_failed_window_stops_search catSM1 [zebraSM1] doc1 0 [] 10 1 6
    (by decide) (by decide) (by rfl) ⟨zebraSM1, by simp, by rfl⟩

/-- C3: the main scan loop only runs while fewer than `MAX_HITS` hits have
been collected (Search.py line 396), so the returned `SearchResult` never
holds more than `MAX_HITS` hits. -/
theorem C3_result_bounded_by_maxHits
    (expandTerm : List Char → List (List Char)) (compile : List Char → Matcher)
    (tokens : List Token) (content : List Char) :
    (executeSearch expandTerm compile tokens content).hits.length ≤ MAX_HITS := by
  simp only [executeSearch]
  split
  · simp
  · simpa using searchLoop_length_le _ content (content.length + 1) 0 [] (by decide)

/-- Membership is preserved by stable insertion. -/
theorem mem_insertByStart (a p : HitPosition) :
    ∀ l, a ∈ insertByStart p l ↔ a = p ∨ a ∈ l := by
  intro l
  induction l with
  | nil => simp [insertByStart]
  | cons q r ih =>
    simp only [insertByStart]
    split <;> simp only [List.mem_cons, ih] <;> tauto

/-- Membership is preserved by the span sort of Search.py line 484. -/
theorem mem_sortByStart (a : HitPosition) : ∀ l, a ∈ sortByStart l ↔ a ∈ l := by
  intro l
  induction l with
  | nil => simp [sortByStart]
  | cons p r ih => simp [sortByStart, mem_insertByStart, ih]

/-- A successful right-boundary close stays inside the searched range. -/
theorem tryClose_bounds {content : List Char} {e0 ep e : Nat}
    (h : tryClose content e0 ep = some e) : e0 ≤ e ∧ e ≤ ep := by
  unfold tryClose at h
  split at h
  next heq => injection h with h'; omega
  next =>
    split at h
    next hlt => injection h with h'; omega
    next => exact absurd h (by simp)

/-- The greedy `[s]*` backtracking stays inside the searched range. -/
theorem tryK_bounds {content : List Char} {base ep e : Nat} :
    ∀ k, tryK content base ep k = some e → base ≤ e ∧ e ≤ ep := by
  intro k
  induction k with
  | zero => intro h; exact tryClose_bounds h
  | succ k ih =>
    intro h
    simp only [tryK] at h
    cases hc : tryClose content (base + (k + 1)) ep with
    | some e1 =>
      rw [hc] at h; injection h with h'; subst h'
      have := tryClose_bounds hc; omega
    | none => rw [hc] at h; exact ih h

/-- A core match stays inside the searched range. -/
theorem tryCoreAt_bounds {w content : List Char} {q ep e : Nat}
    (h : tryCoreAt w content q ep = some e) : q ≤ e ∧ e ≤ ep := by
  unfold tryCoreAt at h
  split at h
  · have := tryK_bounds _ h; omega
  · exact absurd h (by simp)

/-- A whole-pattern match at `p` stays inside the searched range. -/
theorem tryMatchAt_bounds {w content : List Char} {p ep e : Nat}
    (h : tryMatchAt w content p ep = some e) : p ≤ e ∧ e ≤ ep := by
  by_cases hp : p = 0
  · subst hp
    cases hc : tryCoreAt w content 0 ep with
    | some e1 =>
      simp only [tryMatchAt, if_pos rfl, hc] at h
      injection h with h'; subst h'
      have := tryCoreAt_bounds hc; omega
    | none =>
      by_cases hcond : 0 < ep ∧ charAtN content 0 ∈ wordBoundaryChars
      · have h' : tryCoreAt w content 1 ep = some e := by
          simpa [tryMatchAt, hc, hcond] using h
        have := tryCoreAt_bounds h'; omega
      · exact absurd (by simpa [tryMatchAt, hc, hcond] using h) not_false
  · by_cases hcond : p < ep ∧ charAtN content p ∈ wordBoundaryChars
    · have h' : tryCoreAt w content (p + 1) ep = some e := by
        simpa [tryMatchAt, hp, hcond] using h
      have := tryCoreAt_bounds h'; omega
    · exact absurd (by simpa [tryMatchAt, hp, hcond] using h) not_false

/-- The leftmost scan reports matches inside the searched range, at or after
the scan position. -/
theorem reSearchAux_bounds {w content : List Char} {ep : Nat} :
    ∀ fuel p s e, reSearchAux w content ep p fuel = some (s, e) →
      p ≤ s ∧ s ≤ e ∧ e ≤ ep := by
  intro fuel
  induction fuel with
  | zero => intro p s e h; exact absurd h (by simp [reSearchAux])
  | succ f ih =>
    intro p s e h
    simp only [reSearchAux] at h
    split at h
    · cases hm : tryMatchAt w content p ep with
      | some e1 =>
        rw [hm] at h
        simp only [Option.some.injEq, Prod.mk.injEq] at h
        obtain ⟨rfl, rfl⟩ := h
        have := tryMatchAt_bounds hm; omega
      | none =>
        rw [hm] at h
        have := ih (p + 1) s e h; omega
    · exact absurd h (by simp)

/-- The executable model of `re` search is a well-formed matcher. -/
theorem mkWordMatcher_wf (w content : List Char) : MatcherWF (mkWordMatcher w content) := by
  intro pos ep s e h
  simp only [mkWordMatcher, reSearchWord] at h
  exact reSearchAux_bounds _ _ _ _ h

/-- A best match reported by the closest-candidate loop lies inside the
bracket (for a well-formed matcher). -/
theorem bestLoop_bounds {m : Matcher} (hWF : MatcherWF m) (aS aE eB sB0 : Nat) :
    ∀ fuel ns best minD bm, sB0 ≤ ns →
      (∀ b, best = some b → sB0 ≤ b.1 ∧ b.1 ≤ b.2 ∧ b.2 ≤ eB) →
      bestLoop m aS aE eB ns best minD fuel = some bm →
      sB0 ≤ bm.1 ∧ bm.1 ≤ bm.2 ∧ bm.2 ≤ eB := by
  intro fuel
  induction fuel with
  | zero => intro ns best minD bm hns hinv h; exact hinv bm h
  | succ f ih =>
    intro ns best minD bm hns hinv h
    cases hm : m ns eB with
    | none =>
      simp only [bestLoop, hm] at h
      exact hinv bm h
    | some om =>
      have hom := hWF ns eB om.1 om.2 hm
      simp only [bestLoop, hm] at h
      split at h
      · refine ih (om.2 + 1) (some om) _ bm (by omega) ?_ h
        intro b hb
        injection hb with hb'
        subst hb'
        omega
      · exact ih (om.2 + 1) best minD bm (by omega) hinv h

/-- The bracket start never precedes the scan cursor (Search.py lines
421-422). -/
theorem windowBracket_fst_ge (len ss mS mE : Nat) :
    ss ≤ (windowBracket len ss mS mE).1 := by
  unfold windowBracket
  dsimp only
  split_ifs <;> omega

/-- Spans collected by the per-clause loop stay between the scan cursor and
the final `lastPosition` (for well-formed matchers), and `lastPosition` never
moves backwards. -/
theorem clausesLoop_bounds (contentLen aS aE sB eB scanStart : Nat) (hsb : scanStart ≤ sB) :
    ∀ (restL : List SearchMatcher) (hl : List HitPosition) (lp : Nat)
      (hl' : List HitPosition) (lp' : Nat),
      (∀ c ∈ restL, MatcherWF c.matcher) →
      (∀ sp ∈ hl, (scanStart : Int) ≤ sp.start ∧ sp.stop ≤ (lp : Int)) →
      clausesLoop contentLen aS aE sB eB hl lp false restL = some (hl', lp') →
      (∀ sp ∈ hl', (scanStart : Int) ≤ sp.start ∧ sp.stop ≤ (lp' : Int)) ∧ lp ≤ lp' := by
  intro restL
  induction restL with
  | nil =>
    intro hl lp hl' lp' _ hinv h
    simp only [clausesLoop, Option.some.injEq, Prod.mk.injEq] at h
    obtain ⟨rfl, rfl⟩ := h
    exact ⟨hinv, le_refl _⟩
  | cons c rest ih =>
    intro hl lp hl' lp' hWFs hinv h
    cases hb : bestLoop c.matcher aS aE eB sB none 999999 (contentLen + 2) with
    | none =>
      simp only [clausesLoop, Bool.false_eq_true, if_false, hb] at h
      exact absurd h (by simp)
    | some bm =>
      simp only [clausesLoop, Bool.false_eq_true, if_false, hb] at h
      have hbm := bestLoop_bounds (hWFs c (by simp)) aS aE eB sB (contentLen + 2) sB none
        999999 bm le_rfl (by intro b hb'; exact absurd hb' (by simp)) hb
      have hlp2 : lp ≤ (if bm.2 > lp then bm.2 else lp) := by split <;> omega
      have h2 := ih (hl ++ [trimHitPosition contentLen bm.1 bm.2])
        (if bm.2 > lp then bm.2 else lp) hl' lp'
        (fun c' hc' => hWFs c' (List.mem_cons_of_mem _ hc')) ?_ h
      · exact ⟨h2.1, le_trans hlp2 h2.2⟩
      · intro sp hsp
        rcases List.mem_append.mp hsp with hold | hnew
        · have := hinv sp hold
          constructor
          · exact this.1
          · have : sp.stop ≤ (lp : Int) := this.2
            split <;> [skip; skip] <;> push_cast <;> omega
        · simp only [List.mem_singleton] at hnew
          subst hnew
          simp only [trimHitPosition]
          constructor
          · split <;> push_cast <;> omega
          · split <;> split <;> push_cast <;> omega

/-- One successful step of the scan loop strictly advances the cursor, and
every span of the recorded hit lies between the old and the new cursor (for
well-formed matchers). -/
theorem searchStep_bounds {clauses : List SearchMatcher} {content : List Char} {scanStart : Nat}
    {h : List HitPosition} {ns : Nat}
    (hWFs : ∀ c ∈ clauses, MatcherWF c.matcher)
    (hstep : searchStep clauses content scanStart = some (h, ns)) :
    scanStart < ns ∧ ∀ sp ∈ h, (scanStart : Int) ≤ sp.start ∧ sp.stop < (ns : Int) := by
  cases clauses with
  | nil => exact absurd hstep (by simp [searchStep])
  | cons c0 rest =>
    cases ha : c0.matcher scanStart content.length with
    | none =>
      simp only [searchStep, ha] at hstep
      exact absurd hstep (by simp)
    | some mm =>
      obtain ⟨mS, mE⟩ := mm
      have hanchor := hWFs c0 (by simp) scanStart content.length mS mE ha
      cases hcl : clausesLoop content.length mS mE
          (windowBracket content.length scanStart mS mE).1
          (windowBracket content.length scanStart mS mE).2
          [trimHitPosition content.length mS mE] mE true (c0 :: rest) with
      | none =>
        simp only [searchStep, ha, hcl] at hstep
        exact absurd hstep (by simp)
      | some p =>
        obtain ⟨hl, lastPos⟩ := p
        simp only [searchStep, ha, hcl, Option.some.injEq, Prod.mk.injEq] at hstep
        obtain ⟨rfl, rfl⟩ := hstep
        have hcl' : clausesLoop content.length mS mE
            (windowBracket content.length scanStart mS mE).1
            (windowBracket content.length scanStart mS mE).2
            [trimHitPosition content.length mS mE] mE false rest = some (hl, lastPos) := by
          simpa only [clausesLoop, if_true] using hcl
        have hbounds := clausesLoop_bounds content.length mS mE
          (windowBracket content.length scanStart mS mE).1
          (windowBracket content.length scanStart mS mE).2 scanStart
          (windowBracket_fst_ge _ _ _ _) rest
          [trimHitPosition content.length mS mE] mE hl lastPos
          (fun c' hc' => hWFs c' (List.mem_cons_of_mem _ hc')) ?_ hcl'
        · constructor
          · omega
          · intro sp hsp
            have hmem := (mem_sortByStart sp hl).mp hsp
            have := hbounds.1 sp hmem
            constructor
            · exact this.1
            · push_cast
              omega
        · intro sp hsp
          simp only [List.mem_singleton] at hsp
          subst hsp
          simp only [trimHitPosition]
          constructor
          · split <;> push_cast <;> omega
          · split <;> push_cast <;> omega

/-- The scan loop preserves the pairwise ordering of hits: every hit already
collected lies strictly before the cursor, and every new hit lies at or after
it (for well-formed matchers). -/
theorem searchLoop_pairwise {clauses : List SearchMatcher} {content : List Char}
    (hWFs : ∀ c ∈ clauses, MatcherWF c.matcher) :
    ∀ (fuel scanStart : Nat) (acc : List (List HitPosition)),
      List.Pairwise (fun h1 h2 => ∀ a ∈ h1, ∀ b ∈ h2, a.stop < b.start) acc →
      (∀ hh ∈ acc, ∀ sp ∈ hh, sp.stop < (scanStart : Int)) →
      List.Pairwise (fun h1 h2 => ∀ a ∈ h1, ∀ b ∈ h2, a.stop < b.start)
        (searchLoop clauses content scanStart acc fuel) := by
  intro fuel
  induction fuel with
  | zero => intro ss acc h1 h2; simpa [searchLoop] using h1
  | succ f ih =>
    intro ss acc h1 h2
    simp only [searchLoop]
    split
    · cases hstep : searchStep clauses content ss with
      | none => simpa using h1
      | some p =>
        obtain ⟨hh, ns⟩ := p
        have hb := searchStep_bounds hWFs hstep
        apply ih ns (acc ++ [hh])
        · rw [List.pairwise_append]
          refine ⟨h1, by simp, ?_⟩
          intro x hx y hy
          simp only [List.mem_singleton] at hy
          subst hy
          intro a ha b hbm
          exact lt_of_lt_of_le (h2 x hx a ha) ((hb.2 b hbm).1)
        · intro hh' hmem sp hsp
          rcases List.mem_append.mp hmem with hold | hnew
          · have h3 := h2 hh' hold sp hsp
            have h4 : (ss : Int) < (ns : Int) := by exact_mod_cast hb.1
            omega
          · simp only [List.mem_singleton] at hnew
            subst hnew
            exact (hb.2 sp hsp).2
    · simpa using h1

/-- C2 counterexample: for the single-clause query `cat` over `"a cat runs"`
the raw anchor match is `[1, 6)` (boundary characters included), the recorded
trimmed Span is `[2, 5)`, and the next scan cursor is `7 = 1 + 6` (one past
the raw match end, Search.py line 487) — not `6 = 1 + 5`, one past the
maximum Span end, as the claim states. -/
theorem C2_counterexample :
    searchStep [catSM1] doc1 0 = some ([⟨2, 5⟩], 7) ∧
    ¬ ((7 : Int) = 1 + maxSpanStop [(⟨2, 5⟩ : HitPosition)]) := by
  exact ⟨by rfl, by decide⟩

/-- C2 (amended): a recorded hit advances the scan cursor to one past the
maximum raw (untrimmed) match end, which lies strictly past every trimmed
Span of the hit; consequently every span of a recorded hit starts at or after
the cursor that produced it and ends strictly before the next cursor, and the
hits of a search appear at strictly increasing document positions — every
span of a later hit starts strictly after every span of an earlier hit, so no
consumed text is re-matched. -/
theorem C2_cursor_advance_and_ordering :
    (∀ (clauses : List SearchMatcher) (content : List Char) (scanStart : Nat)
        (h : List HitPosition) (ns : Nat),
        (∀ c ∈ clauses, MatcherWF c.matcher) →
        searchStep clauses content scanStart = some (h, ns) →
        scanStart < ns ∧ ∀ sp ∈ h, (scanStart : Int) ≤ sp.start ∧ sp.stop < (ns : Int)) ∧
    (∀ (expandTerm : List Char → List (List Char)) (compile : List Char → Matcher)
        (tokens : List Token) (content : List Char),
        (∀ r, MatcherWF (compile r)) →
        List.Pairwise (fun h1 h2 => ∀ a ∈ h1, ∀ b ∈ h2, a.stop < b.start)
          (executeSearch expandTerm compile tokens content).hits) := by
  constructor
  · intro clauses content ss h ns hWFs hstep
    exact searchStep_bounds hWFs hstep
  · intro expandTerm compile tokens content hWF
    simp only [executeSearch]
    split
    · simp
    · refine searchLoop_pairwise ?_ (content.length + 1) 0 [] (by simp) (by simp)
      intro c hc
      simp only [List.mem_map] at hc
      obtain ⟨cl, _, rfl⟩ := hc
      exact hWF _

/-- Witness for the amended C2 at the single-clause query `cat` over
`"a cat runs"`. -/
theorem C2_witness :
    (0 : Nat) < 7 ∧ ∀ sp ∈ [(⟨2, 5⟩ : HitPosition)],
      ((0 : Nat) : Int) ≤ sp.start ∧ sp.stop < ((7 : Nat) : Int) :=
  by
  have hwf : ∀ c ∈ [catSM1], MatcherWF c.matcher := by
    intro c hc
    simp only [List.mem_singleton] at hc
    subst hc
    exact mkWordMatcher_wf _ _
  exact C2_cursor_advance_and_ordering.1 [catSM1] doc1 0 [⟨2, 5⟩] 7 hwf (by rfl)

/-- The closest-candidate loop returns a candidate of minimal distance among
the candidates it enumerates (first-minimal on ties, Search.py line 451). -/
theorem bestLoop_argmin {m : Matcher} (aS aE eB : Nat) :
    ∀ fuel ns best minD bm,
      (∀ b, best = some b → matchDistance aS aE b = minD) →
      bestLoop m aS aE eB ns best minD fuel = some bm →
      (best = some bm ∨ bm ∈ enumCands m eB ns fuel) ∧
      matchDistance aS aE bm ≤ minD ∧
      ∀ c ∈ enumCands m eB ns fuel, matchDistance aS aE bm ≤ matchDistance aS aE c := by
  intro fuel
  induction fuel with
  | zero =>
    intro ns best minD bm hinv h
    simp only [bestLoop] at h
    exact ⟨Or.inl h, le_of_eq (hinv bm h), by simp [enumCands]⟩
  | succ f ih =>
    intro ns best minD bm hinv h
    cases hm : m ns eB with
    | none =>
      simp only [bestLoop, hm] at h
      exact ⟨Or.inl h, le_of_eq (hinv bm h), by simp [enumCands, hm]⟩
    | some om =>
      simp only [bestLoop, hm] at h
      by_cases hd : matchDistance aS aE om < minD
      · rw [if_pos hd] at h
        obtain ⟨hmem, hle, hall⟩ := ih (om.2 + 1) (some om) (matchDistance aS aE om) bm
          (by intro b hb; injection hb with hb'; subst hb'; rfl) h
        refine ⟨?_, le_trans hle (le_of_lt hd), ?_⟩
        · right
          simp only [enumCands, hm, List.mem_cons]
          rcases hmem with heq | hmem'
          · left; injection heq with h2; exact h2.symm
          · right; exact hmem'
        · intro c hc
          simp only [enumCands, hm, List.mem_cons] at hc
          rcases hc with rfl | hc'
          · exact hle
          · exact hall c hc'
      · rw [if_neg hd] at h
        obtain ⟨hmem, hle, hall⟩ := ih (om.2 + 1) best minD bm hinv h
        refine ⟨?_, hle, ?_⟩
        · rcases hmem with heq | hmem'
          · exact Or.inl heq
          · right
            simp only [enumCands, hm, List.mem_cons]
            right; exact hmem'
        · intro c hc
          simp only [enumCands, hm, List.mem_cons] at hc
          rcases hc with rfl | hc'
          · omega
          · exact hall c hc'

/-- C4: when the per-clause loop succeeds on a non-anchor clause, the
candidate it keeps belongs to the enumeration of all of that clause's matches
confined to the window, its distance to the anchor — `anchorStart -
candidateEnd` for candidates starting before the anchor, `candidateStart -
anchorEnd` otherwise (Search.py lines 446-449) — is minimal over that
enumeration, and the Span recorded for the clause is the boundary-trimmed
best candidate (Search.py lines 462-469). -/
theorem C4_closest_candidate_selected
    (c : SearchMatcher) (rest : List SearchMatcher) (contentLen aS aE sB eB lp : Nat)
    (hl : List HitPosition) (bm : Nat × Nat)
    (hbm : bestLoop c.matcher aS aE eB sB none 999999 (contentLen + 2) = some bm) :
    bm ∈ enumCands c.matcher eB sB (contentLen + 2) ∧
    (∀ cand ∈ enumCands c.matcher eB sB (contentLen + 2),
      matchDistance aS aE bm ≤ matchDistance aS aE cand) ∧
    clausesLoop contentLen aS aE sB eB hl lp false (c :: rest) =
      clausesLoop contentLen aS aE sB eB (hl ++ [trimHitPosition contentLen bm.1 bm.2])
        (if bm.2 > lp then bm.2 else lp) false rest := by
  obtain ⟨hmem, _, hall⟩ := bestLoop_argmin aS aE eB (contentLen + 2) sB none 999999 bm
    (by intro b hb; exact absurd hb (by simp)) hbm
  refine ⟨?_, hall, ?_⟩
  · rcases hmem with heq | hmem'
    · exact absurd heq (by simp)
    · exact hmem'
  · simp [clausesLoop, hbm]

/-- Witness for C4: clause `cat` over `"cat x cats"` with anchor match
`[3, 6)` (the word `x` with its boundary characters): the enumeration holds
the two candidates `(0, 4)` and `(5, 10)`, both at distance `-1`, and the
first minimal one, `(0, 4)`, is selected and recorded trimmed. -/
theorem C4_witness :
    (0, 4) ∈ enumCands catSM4.matcher 10 0 12 ∧
    (∀ cand ∈ enumCands catSM4.matcher 10 0 12,
      matchDistance 3 6 (0, 4) ≤ matchDistance 3 6 cand) ∧
    clausesLoop 10 3 6 0 10 [] 6 false [catSM4] =
      clausesLoop 10 3 6 0 10 ([] ++ [trimHitPosition 10 0 4])
        (if 4 > 6 then 4 else 6) false [] :=
  C4_closest_candidate_selected catSM4 [] 10 3 6 0 10 6 [] (0, 4) (by rfl)

/-- Every best match reported by the closest-candidate loop was returned by
some matcher call on the bracket. -/
theorem bestLoop_from_search {m : Matcher} (aS aE eB : Nat) :
    ∀ fuel ns best minD bm,
      bestLoop m aS aE eB ns best minD fuel = some bm →
      best = some bm ∨ ∃ pos, m pos eB = some bm := by
  intro fuel
  induction fuel with
  | zero => intro ns best minD bm h; exact Or.inl h
  | succ f ih =>
    intro ns best minD bm h
    cases hm : m ns eB with
    | none =>
      simp only [bestLoop, hm] at h
      exact Or.inl h
    | some om =>
      simp only [bestLoop, hm] at h
      by_cases hd : matchDistance aS aE om < minD
      · rw [if_pos hd] at h
        rcases ih _ _ _ _ h with heq | hex
        · injection heq with h2
          exact Or.inr ⟨ns, by rw [hm, h2]⟩
        · exact Or.inr hex
      · rw [if_neg hd] at h
        rcases ih _ _ _ _ h with heq | hex
        · exact Or.inl heq
        · exact Or.inr hex

/-- Every span the per-clause loop adds is the trim of a raw match returned
by one of the remaining clauses' matchers. -/
theorem clausesLoop_spans (contentLen aS aE sB eB : Nat) :
    ∀ (restL : List SearchMatcher) (hl : List HitPosition) (lp : Nat)
      (hl' : List HitPosition) (lp' : Nat),
      clausesLoop contentLen aS aE sB eB hl lp false restL = some (hl', lp') →
      ∀ sp ∈ hl', sp ∈ hl ∨ ∃ c ∈ restL, ∃ ms me pos,
        c.matcher pos eB = some (ms, me) ∧ sp = trimHitPosition contentLen ms me := by
  intro restL
  induction restL with
  | nil =>
    intro hl lp hl' lp' h sp hsp
    simp only [clausesLoop, Option.some.injEq, Prod.mk.injEq] at h
    obtain ⟨rfl, rfl⟩ := h
    exact Or.inl hsp
  | cons c rest ih =>
    intro hl lp hl' lp' h sp hsp
    cases hb : bestLoop c.matcher aS aE eB sB none 999999 (contentLen + 2) with
    | none =>
      simp only [clausesLoop, Bool.false_eq_true, if_false, hb] at h
      exact absurd h (by simp)
    | some bm =>
      simp only [clausesLoop, Bool.false_eq_true, if_false, hb] at h
      rcases ih _ _ _ _ h sp hsp with hin | hrest
      · rcases List.mem_append.mp hin with hold | hnew
        · exact Or.inl hold
        · simp only [List.mem_singleton] at hnew
          rcases bestLoop_from_search aS aE eB (contentLen + 2) sB none 999999 bm hb with
            heq | hex
          · exact absurd heq (by simp)
          · obtain ⟨pos, hpos⟩ := hex
            exact Or.inr ⟨c, by simp, bm.1, bm.2, pos, hpos, hnew⟩
      · obtain ⟨c', hc', ms, me, pos, hm, hsp'⟩ := hrest
        exact Or.inr ⟨c', List.mem_cons_of_mem _ hc', ms, me, pos, hm, hsp'⟩

/-- C5 (amended): every Span stored in a recorded hit is a raw regex match
interval adjusted by the trim rule of Search.py lines 409-412 and 464-467 —
start incremented by 1 unless it equals 0, end decremented by 1 unless it
equals `len(content) - 1`.  (The trim removes exactly the captured boundary
characters only when the match captured one on each side; see the
counterexample for a match that starts at offset 0 and ends at the last
index.) -/
theorem C5_spans_are_trimmed_matches :
    ∀ (clauses : List SearchMatcher) (content : List Char) (scanStart : Nat)
      (h : List HitPosition) (ns : Nat),
      searchStep clauses content scanStart = some (h, ns) →
      ∀ sp ∈ h, ∃ ms me : Nat,
        sp = trimHitPosition content.length ms me ∧
        sp.start = (if (ms : Int) ≠ 0 then (ms : Int) + 1 else (ms : Int)) ∧
        sp.stop = (if (me : Int) ≠ (content.length : Int) - 1 then (me : Int) - 1
                   else (me : Int)) ∧
        ∃ c ∈ clauses, ∃ pos ep, c.matcher pos ep = some (ms, me) := by
  intro clauses content scanStart h ns hstep sp hsp
  cases clauses with
  | nil => exact absurd hstep (by simp [searchStep])
  | cons c0 rest =>
    cases ha : c0.matcher scanStart content.length with
    | none =>
      simp only [searchStep, ha] at hstep
      exact absurd hstep (by simp)
    | some mm =>
      obtain ⟨mS, mE⟩ := mm
      cases hcl : clausesLoop content.length mS mE
          (windowBracket content.length scanStart mS mE).1
          (windowBracket content.length scanStart mS mE).2
          [trimHitPosition content.length mS mE] mE true (c0 :: rest) with
      | none =>
        simp only [searchStep, ha, hcl] at hstep
        exact absurd hstep (by simp)
      | some p =>
        obtain ⟨hl, lastPos⟩ := p
        simp only [searchStep, ha, hcl, Option.some.injEq, Prod.mk.injEq] at hstep
        obtain ⟨rfl, rfl⟩ := hstep
        have hmem := (mem_sortByStart sp hl).mp hsp
        have hcl' : clausesLoop content.length mS mE
            (windowBracket content.length scanStart mS mE).1
            (windowBracket content.length scanStart mS mE).2
            [trimHitPosition content.length mS mE] mE false rest = some (hl, lastPos) := by
          simpa only [clausesLoop, if_true] using hcl
        rcases clausesLoop_spans content.length mS mE
            (windowBracket content.length scanStart mS mE).1
            (windowBracket content.length scanStart mS mE).2 rest
            [trimHitPosition content.length mS mE] mE hl lastPos hcl' sp hmem with
          hin | hrest
        · simp only [List.mem_singleton] at hin
          refine ⟨mS, mE, hin, ?_, ?_, c0, by simp, scanStart, content.length, ha⟩
          · rw [hin]; simp [trimHitPosition]
          · rw [hin]; simp [trimHitPosition]
        · obtain ⟨c', hc', ms, me, pos, hm, hsp'⟩ := hrest
          refine ⟨ms, me, hsp', ?_, ?_,
            c', List.mem_cons_of_mem _ hc', pos,
            (windowBracket content.length scanStart mS mE).2, hm⟩
          · rw [hsp']; simp [trimHitPosition]
          · rw [hsp']; simp [trimHitPosition]

/-- C5 counterexample: over the document `" cat x"` (length 6) the clause
`cat` raw anchor match is `[0, 5)` = `" cat "`, a boundary character captured
on each side; but start `0` is not incremented and stop `5 = len - 1` is not
decremented, so the recorded Span `[0, 5)` covers `" cat "` — not precisely
the matched variant text `cat`, which sits at `[1, 4)`. -/
theorem C5_counterexample :
    searchStep [catSM2] doc2 0 = some ([⟨0, 5⟩], 6) ∧
    tryMatchAt "cat".data doc2 0 6 = some 5 ∧
    tryCoreAt "cat".data doc2 1 6 = some 5 ∧
    pySlice doc2 0 5 = " cat ".data ∧
    ' ' ∈ pySlice doc2 0 5 ∧
    pySlice doc2 0 5 ≠ "cat".data :=
  ⟨by rfl, by rfl, by rfl, by rfl, by decide, by decide⟩

/-- Witness for the amended C5 at the single-clause query `cat` over
`"a cat runs"`: the recorded Span `[2, 5)` is the trim of the raw match
`[1, 6)`. -/
theorem C5_witness :
    ∃ ms me : Nat,
      (⟨2, 5⟩ : HitPosition) = trimHitPosition doc1.length ms me ∧
      (⟨2, 5⟩ : HitPosition).start =
        (if (ms : Int) ≠ 0 then (ms : Int) + 1 else (ms : Int)) ∧
      (⟨2, 5⟩ : HitPosition).stop =
        (if (me : Int) ≠ (doc1.length : Int) - 1 then (me : Int) - 1 else (me : Int)) ∧
      ∃ c ∈ [catSM1], ∃ pos ep, c.matcher pos ep = some (ms, me) :=
  C5_spans_are_trimmed_matches [catSM1] doc1 0 [⟨2, 5⟩] 7 (by rfl) ⟨2, 5⟩ (by simp)

/-- Scanning a bare `AND`/`OR` word followed by a separator finalizes it to
the empty token, which is dropped, leaving the tokenizer state untouched. -/
theorem foldl_boolean_word_space (tks : List Token) (w : List Char)
    (hw : w = "AND".data ∨ w = "OR".data) :
    List.foldl tokStep ⟨none, false, tks⟩ (w ++ [' ']) = ⟨none, false, tks⟩ := by
  rcases hw with rfl | rfl <;> rfl

/-- A query made only of exact-case `AND`/`OR` words tokenizes to nothing. -/
theorem tokenize_booleans :
    ∀ (ws : List (List Char)), (∀ w ∈ ws, w = "AND".data ∨ w = "OR".data) →
      ∀ tks, tokenizeEnd (List.foldl tokStep ⟨none, false, tks⟩ (joinWords ws)) = tks := by
  intro ws
  induction ws with
  | nil => intro _ tks; rfl
  | cons w ws ih =>
    intro hws tks
    have hw := hws w (by simp)
    cases ws with
    | nil => rcases hw with rfl | rfl <;> rfl
    | cons w2 ws2 =>
      have hjoin : joinWords (w :: w2 :: ws2) = (w ++ [' ']) ++ joinWords (w2 :: ws2) := by
        simp [joinWords, List.append_assoc]
      rw [hjoin, List.foldl_append, foldl_boolean_word_space tks w hw]
      exact ih (fun w' hw' => hws w' (List.mem_cons_of_mem _ hw')) tks

/-- C6: a query producing zero clauses yields an empty `SearchResult`
(Search.py lines 382-384), with no error signalled (all embedded functions
are total); in particular a query consisting solely of the exact uppercase
boolean tokens `AND`/`OR` tokenizes to nothing (Search.py lines 127-132) and
returns an empty result. -/
theorem C6_empty_clause_list_empty_result :
    (∀ (expandTerm : List Char → List (List Char)) (compile : List Char → Matcher)
        (tokens : List Token) (content : List Char),
        collectClauses tokens [] = [] →
        (executeSearch expandTerm compile tokens content).hits = []) ∧
    (∀ (expandTerm : List Char → List (List Char)) (compile : List Char → Matcher)
        (ws : List (List Char)) (content : List Char),
        (∀ w ∈ ws, w = "AND".data ∨ w = "OR".data) →
        tokenize (joinWords ws) = [] ∧
        (executeSearch expandTerm compile (tokenize (joinWords ws)) content).hits = []) := by
  constructor
  · intro expandTerm compile tokens content hempty
    simp [executeSearch, hempty, sortDescLen]
  · intro expandTerm compile ws content hws
    have htok : tokenize (joinWords ws) = [] := tokenize_booleans ws hws []
    refine ⟨htok, ?_⟩
    rw [htok]
    simp [executeSearch, collectClauses, sortDescLen]

/-- Witness for C6 at the query `AND OR`. -/
theorem C6_witness :
    tokenize (joinWords ["AND".data, "OR".data]) = [] ∧
    (executeSearch expandId compileNone (tokenize (joinWords ["AND".data, "OR".data]))
      doc1).hits = [] :=
  C6_empty_clause_list_empty_result.2 expandId compileNone ["AND".data, "OR".data] doc1
    (by intro w hw; simpa using hw)

/-- C7: tokenization preserves parenthesized codes.  `168(a)` tokenizes to
the single term `168(a)` (trailing paren kept because an open paren occurs in
the word, Search.py lines 115-117); any non-literal term that starts with
`(` and ends with `)` — such as `(a)(2)` — is finalized verbatim (Search.py
lines 81-84); and a bare `(foo` has its leading paren stripped. -/
theorem C7_parenthesized_codes :
    tokenize "168(a)".data = [⟨"168(a)".data, false, none, none⟩] ∧
    (∀ t : List Char, t.head? = some '(' → t.getLast? = some ')' →
      finalizeExtraction false ⟨t, false, none, none⟩ = ⟨t, false, none, none⟩) ∧
    tokenize "(foo".data = [⟨"foo".data, false, none, none⟩] := by
  refine ⟨by rfl, ?_, by rfl⟩
  intro t h1 h2
  cases t with
  | nil => simp at h1
  | cons a t' =>
    simp only [List.head?_cons, Option.some.injEq] at h1
    subst h1
    have hAND : ¬('(' :: t') = "AND".data := by
      intro he
      rw [he] at h2
      exact absurd h2 (by decide)
    have hOR : ¬('(' :: t') = "OR".data := by
      intro he
      rw [he] at h2
      exact absurd h2 (by decide)
    have hfront : ∀ fuel, frontLoopAux ⟨'(' :: t', false, none, none⟩ 0 (fuel + 1) =
        ⟨'(' :: t', false, none, none⟩ := by
      intro fuel
      simp [frontLoopAux, h2]
    have hgetD : ('(' :: t').getD t'.length nullChar = ')' := by
      have h4 : ('(' :: t')[t'.length]? = ('(' :: t').getLast? := by
        rw [List.getLast?_eq_getElem?]
        simp
      rw [List.getD_eq_getElem?_getD, h4, h2]
      rfl
    have hback : ∀ fuel, backLoopAux ⟨'(' :: t', false, none, none⟩
        (((('(' :: t').length : Int)) - 1) (fuel + 1) = ⟨'(' :: t', false, none, none⟩ := by
      intro fuel
      have h3 : (((('(' :: t').length : Nat) : Int) - 1).toNat = t'.length := by
        simp only [List.length_cons]
        omega
      simp only [backLoopAux]
      rw [if_pos ⟨by simp, by simp only [List.length_cons]; push_cast; omega⟩]
      rw [h3, hgetD]
      simp
    simp only [finalizeExtraction, Bool.false_eq_true, if_false]
    rw [hfront]
    rw [hback]
    rw [if_neg hAND, if_neg hOR]

/-- Witness for C7's general clause at the term `(a)(2)`. -/
theorem C7_witness :
    finalizeExtraction false ⟨"(a)(2)".data, false, none, none⟩ =
      ⟨"(a)(2)".data, false, none, none⟩ :=
  C7_parenthesized_codes.2.1 "(a)(2)".data (by rfl) (by rfl)

/-- Postcondition of the walk-left loop: it stops at the buffer edge or just
after a space. -/
theorem walkLeftAux_post (content : List Char) :
    ∀ fuel (k : Int), k.toNat ≤ fuel →
      walkLeftAux content k fuel ≤ 0 ∨
        pyCharAt content (walkLeftAux content k fuel - 1) = ' ' := by
  intro fuel
  induction fuel with
  | zero =>
    intro k hk
    simp only [walkLeftAux]
    left
    omega
  | succ f ih =>
    intro k hk
    simp only [walkLeftAux]
    split
    · rename_i hg
      exact ih (k - 1) (by omega)
    · rename_i hg
      push_neg at hg
      by_cases h0 : 0 < k
      · right
        exact hg h0
      · left
        omega

/-- The left KWIC boundary is word-aligned. -/
theorem walkLeft_post (content : List Char) (k : Int) :
    walkLeft content k ≤ 0 ∨ pyCharAt content (walkLeft content k - 1) = ' ' :=
  walkLeftAux_post content k.toNat k le_rfl

/-- Postcondition of the walk-right loop: it stops at the buffer edge or on a
space. -/
theorem walkRightAux_post (content : List Char) :
    ∀ fuel (k : Int), ((content.length : Int) - k).toNat ≤ fuel →
      (content.length : Int) ≤ walkRightAux content k fuel ∨
        pyCharAt content (walkRightAux content k fuel) = ' ' := by
  intro fuel
  induction fuel with
  | zero =>
    intro k hk
    simp only [walkRightAux]
    left
    omega
  | succ f ih =>
    intro k hk
    simp only [walkRightAux]
    split
    · rename_i hg
      exact ih (k + 1) (by omega)
    · rename_i hg
      push_neg at hg
      by_cases h0 : k < (content.length : Int)
      · right
        exact hg h0
      · left
        omega

/-- The right KWIC boundary is word-aligned. -/
theorem walkRight_post (content : List Char) (k : Int) :
    (content.length : Int) ≤ walkRight content k ∨
      pyCharAt content (walkRight content k) = ' ' :=
  walkRightAux_post content ((content.length : Int) - k).toNat k le_rfl

/-- C8: the KWIC excerpt boundaries are word-aligned.  The left boundary
starts at `hit[0].start - PRECEDING_CHARS` and is walked left while it is
positive and the character before it is not a plain space, so it stops at the
buffer edge or just after a space (Search.py lines 512-515); the right
boundary starts `FOLLOWING_CHARS` past the final cursor and is walked right
while it is before the end and the current character is not a plain space,
so it stops at the buffer edge or on a space (Search.py lines 535-541); and
`calculateKWIC` is exactly the text built between those boundaries. -/
theorem C8_kwic_boundaries_word_aligned (content : List Char) (h0 : HitPosition)
    (rest : List HitPosition) :
    (walkLeft content (h0.start - PRECEDING_CHARS) ≤ 0 ∨
      pyCharAt content (walkLeft content (h0.start - PRECEDING_CHARS) - 1) = ' ') ∧
    ((content.length : Int) ≤
        walkRight content ((kwicLoop content (h0 :: rest)
          (walkLeft content (h0.start - PRECEDING_CHARS)) []).2 + FOLLOWING_CHARS) ∨
      pyCharAt content (walkRight content ((kwicLoop content (h0 :: rest)
          (walkLeft content (h0.start - PRECEDING_CHARS)) []).2 + FOLLOWING_CHARS)) = ' ') ∧
    calculateKWIC content (h0 :: rest) =
      (kwicLoop content (h0 :: rest) (walkLeft content (h0.start - PRECEDING_CHARS)) []).1 ++
        pySlice content
          (kwicLoop content (h0 :: rest)
            (walkLeft content (h0.start - PRECEDING_CHARS)) []).2
          (walkRight content ((kwicLoop content (h0 :: rest)
            (walkLeft content (h0.start - PRECEDING_CHARS)) []).2 + FOLLOWING_CHARS)) :=
  ⟨walkLeft_post content _, walkRight_post content _, rfl⟩

/-- C10: when the first span starts fewer than `PRECEDING_CHARS` characters
into a document at least `PRECEDING_CHARS` long, the left KWIC boundary is
negative so the walk-left loop does not run, the Python slice
`content[startKWIC:start]` is empty (the negative index counts from the end
of the buffer), and the excerpt therefore omits all text before the first
span instead of starting at the document's first character. -/
theorem C10_negative_boundary_empty_prefix (content : List Char) (h0 : HitPosition)
    (rest : List HitPosition)
    (hge : 0 ≤ h0.start) (hlt : h0.start < PRECEDING_CHARS)
    (hlen : PRECEDING_CHARS ≤ (content.length : Int)) :
    walkLeft content (h0.start - PRECEDING_CHARS) = h0.start - PRECEDING_CHARS ∧
    pySlice content (h0.start - PRECEDING_CHARS) h0.start = [] ∧
    calculateKWIC content (h0 :: rest) =
      (kwicLoop content (h0 :: rest) h0.start []).1 ++
        pySlice content (kwicLoop content (h0 :: rest) h0.start []).2
          (walkRight content ((kwicLoop content (h0 :: rest) h0.start []).2 +
            FOLLOWING_CHARS)) := by
  have hneg : h0.start - PRECEDING_CHARS < 0 := by
    simp only [PRECEDING_CHARS] at hlt ⊢
    omega
  have hwl : walkLeft content (h0.start - PRECEDING_CHARS) = h0.start - PRECEDING_CHARS := by
    unfold walkLeft
    rw [show (h0.start - PRECEDING_CHARS).toNat = 0 from by omega]
    rfl
  have hslice : pySlice content (h0.start - PRECEDING_CHARS) h0.start = [] := by
    unfold pySlice
    apply List.drop_eq_nil_of_le
    have ha : pySliceIdx content.length (h0.start - PRECEDING_CHARS) =
        ((content.length : Int) + (h0.start - PRECEDING_CHARS)).toNat := by
      simp [pySliceIdx, hneg]
    have hb : pySliceIdx content.length h0.start = min h0.start.toNat content.length := by
      simp only [pySliceIdx]
      rw [if_neg (by omega)]
    rw [ha, hb]
    simp only [List.length_take, PRECEDING_CHARS] at *
    omega
  have hkl : kwicLoop content (h0 :: rest) (h0.start - PRECEDING_CHARS) [] =
      kwicLoop content (h0 :: rest) h0.start [] := by
    simp only [kwicLoop]
    rw [if_pos (show h0.start > h0.start - PRECEDING_CHARS from by
      simp only [PRECEDING_CHARS]; omega)]
    rw [hslice]
    rw [if_neg (lt_irrefl _)]
    simp
  have hc : calculateKWIC content (h0 :: rest) =
      (kwicLoop content (h0 :: rest) (walkLeft content (h0.start - PRECEDING_CHARS)) []).1 ++
        pySlice content
          (kwicLoop content (h0 :: rest)
            (walkLeft content (h0.start - PRECEDING_CHARS)) []).2
          (walkRight content ((kwicLoop content (h0 :: rest)
            (walkLeft content (h0.start - PRECEDING_CHARS)) []).2 + FOLLOWING_CHARS)) := rfl
  refine ⟨hwl, hslice, ?_⟩
  rw [hc, hwl, hkl]

/-- Witness for C10: a hit whose first span starts at offset 2 of the
20-character document `"ab cd ef gh ij kl mn "`. -/
theorem C10_witness :
    walkLeft "ab cd ef gh ij kl mnop".data ((2 : Int) - PRECEDING_CHARS) =
        (2 : Int) - PRECEDING_CHARS ∧
    pySlice "ab cd ef gh ij kl mnop".data ((2 : Int) - PRECEDING_CHARS) 2 = [] ∧
    calculateKWIC "ab cd ef gh ij kl mnop".data [⟨2, 4⟩] =
      (kwicLoop "ab cd ef gh ij kl mnop".data [⟨2, 4⟩] (2 : Int) []).1 ++
        pySlice "ab cd ef gh ij kl mnop".data
          (kwicLoop "ab cd ef gh ij kl mnop".data [⟨2, 4⟩] (2 : Int) []).2
          (walkRight "ab cd ef gh ij kl mnop".data
            ((kwicLoop "ab cd ef gh ij kl mnop".data [⟨2, 4⟩] (2 : Int) []).2 +
              FOLLOWING_CHARS)) :=
  C10_negative_boundary_empty_prefix "ab cd ef gh ij kl mnop".data ⟨2, 4⟩ []
    (by decide) (by decide) (by decide)

/-- No word-boundary character case-folds to `s`. -/
theorem wb_toLower_ne_s {c : Char} (h : c ∈ wordBoundaryChars) : ¬ c.toLower = 's' := by
  fin_cases h <;> decide

/-- No word-boundary character case-folds to `h`. -/
theorem wb_toLower_ne_h {c : Char} (h : c ∈ wordBoundaryChars) : ¬ c.toLower = 'h' := by
  fin_cases h <;> decide

/-- A failed `[s]*` guard yields an empty run. -/
theorem sRunLenAux_zero {doc : List Char} {j ep : Nat}
    (h : ¬(j < ep ∧ (charAtN doc j).toLower = 's')) :
    ∀ fuel, sRunLenAux doc j ep fuel = 0 := by
  intro fuel
  cases fuel with
  | zero => rfl
  | succ f =>
    simp only [sRunLenAux]
    rw [if_neg h]

/-- The core `horse[s]*($|[boundary])` matches at `i` when the document holds
the whole word `horse` there with a right boundary. -/
theorem tryCore_horse (doc : List Char) (i : Nat)
    (hs : sliceN doc i (i + 5) = "horse".data)
    (hright : i + 5 = doc.length ∨
      (i + 5 < doc.length ∧ charAtN doc (i + 5) ∈ wordBoundaryChars)) :
    tryCoreAt "horse".data doc i doc.length =
      some (if i + 5 = doc.length then i + 5 else i + 6) := by
  have hlen5 : i + 5 ≤ doc.length := by
    have := congrArg List.length hs
    simp [sliceN] at this
    omega
  have hw5 : ("horse".data : List Char).length = 5 := rfl
  unfold tryCoreAt
  rw [hw5]
  rw [if_pos ⟨hlen5, by rw [hs]; rfl⟩]
  have hrun : sRunLen doc (i + 5) doc.length = 0 := by
    unfold sRunLen
    apply sRunLenAux_zero
    rcases hright with he | ⟨hlt, hmem⟩
    · omega
    · rintro ⟨_, hls⟩
      exact wb_toLower_ne_s hmem hls
  rw [hrun]
  simp only [tryK]
  unfold tryClose
  rcases hright with he | ⟨hlt, hmem⟩
  · simp [he]
  · rw [if_neg (by omega), if_pos ⟨hlt, hmem⟩, if_neg (by omega)]

/-- The core `horse[s]*($|[boundary])` matches at `i` when the document holds
the whole word `horses` there with a right boundary (the greedy `[s]*`
consumes the plural `s`). -/
theorem tryCore_horses (doc : List Char) (i : Nat)
    (hs : sliceN doc i (i + 6) = "horses".data)
    (hright : i + 6 = doc.length ∨
      (i + 6 < doc.length ∧ charAtN doc (i + 6) ∈ wordBoundaryChars)) :
    tryCoreAt "horse".data doc i doc.length =
      some (if i + 6 = doc.length then i + 6 else i + 7) := by
  have hlen6 : i + 6 ≤ doc.length := by
    have := congrArg List.length hs
    simp [sliceN] at this
    omega
  have hs5 : sliceN doc i (i + 5) = "horse".data := by
    have h1 : sliceN doc i (i + 5) = (sliceN doc i (i + 6)).take 5 := by
      simp [sliceN, List.take_take, Nat.add_sub_cancel_left]
    rw [h1, hs]
    rfl
  have hch : charAtN doc (i + 5) = 's' := by
    have h1 : doc[i + 5]? = (sliceN doc i (i + 6))[5]? := by
      unfold sliceN
      rw [show i + 6 - i = 6 from by omega]
      rw [List.getElem?_take_of_lt (by omega : (5 : Nat) < 6), List.getElem?_drop]
    unfold charAtN
    rw [List.getD_eq_getElem?_getD, h1, hs]
    rfl
  have hw5 : ("horse".data : List Char).length = 5 := rfl
  unfold tryCoreAt
  rw [hw5]
  rw [if_pos ⟨by omega, by rw [hs5]; rfl⟩]
  have hrun : sRunLen doc (i + 5) doc.length = 1 := by
    unfold sRunLen
    rw [show doc.length - (i + 5) = (doc.length - (i + 6)) + 1 from by omega]
    simp only [sRunLenAux]
    rw [if_pos ⟨by omega, by rw [hch]; decide⟩]
    rw [show i + 5 + 1 = i + 6 from by omega]
    rw [sRunLenAux_zero]
    rintro ⟨hlt, hls⟩
    rcases hright with he | ⟨_, hmem⟩
    · omega
    · exact wb_toLower_ne_s hmem hls
  rw [hrun]
  simp only [tryK]
  rw [show i + 5 + (0 + 1) = i + 6 from by omega]
  unfold tryClose
  rcases hright with he | ⟨hlt, hmem⟩
  · simp [he]
  · rw [if_neg (by omega), if_pos ⟨hlt, hmem⟩]
    rw [show i + 6 + 1 = i + 7 from by omega]
    show some (i + 7) = some (if i + 6 = doc.length then i + 6 else i + 7)
    rw [if_neg (by omega)]

/-- The core never matches starting on a boundary character (so the `^`
alternative fails at position 0 over such a document). -/
theorem tryCore_horse_at0_none (doc : List Char) (ep : Nat)
    (hmem : charAtN doc 0 ∈ wordBoundaryChars) :
    tryCoreAt "horse".data doc 0 ep = none := by
  unfold tryCoreAt
  rw [if_neg]
  rintro ⟨_, heq⟩
  cases doc with
  | nil => exact absurd hmem (by decide)
  | cons d rest =>
    have hd : d ∈ wordBoundaryChars := by simpa [charAtN] using hmem
    have hsl : sliceN (d :: rest) 0 (0 + ("horse".data : List Char).length) =
        d :: rest.take 4 := by
      simp [sliceN]
    rw [hsl] at heq
    unfold lowerEq at heq
    have h3 : d.toLower = 'h' := by
      have h4 := congrArg (fun l => l.getD 0 nullChar) heq
      simpa using h4
    exact wb_toLower_ne_h hd h3

/-- Lift a core match at `i` to a whole-pattern match from the position of
the captured left boundary (or from 0 at start of text). -/
theorem tryMatch_horse_left (doc : List Char) (i ep e : Nat)
    (hcore : tryCoreAt "horse".data doc i ep = some e)
    (hleft : i = 0 ∨ (i - 1 < ep ∧ charAtN doc (i - 1) ∈ wordBoundaryChars)) :
    tryMatchAt "horse".data doc (if i = 0 then 0 else i - 1) ep = some e := by
  by_cases hi : i = 0
  · subst hi
    simp [tryMatchAt, hcore]
  · rcases hleft with h0 | ⟨hlt, hmem⟩
    · exact absurd h0 hi
    · rw [if_neg hi]
      by_cases hi1 : i = 1
      · subst hi1
        have hcore0 : tryCoreAt "horse".data doc 0 ep = none :=
          tryCore_horse_at0_none doc ep (by simpa using hmem)
        have hp0 : (1 : Nat) - 1 = 0 := rfl
        rw [hp0]
        unfold tryMatchAt
        rw [if_pos rfl, hcore0]
        show (if 0 < ep ∧ charAtN doc 0 ∈ wordBoundaryChars then
          tryCoreAt "horse".data doc 1 ep else none) = some e
        rw [if_pos ⟨by omega, by simpa using hmem⟩]
        exact hcore
      · unfold tryMatchAt
        rw [if_neg (by omega)]
        rw [if_pos ⟨hlt, hmem⟩]
        rw [show i - 1 + 1 = i from by omega]
        exact hcore

/-- C9: lemma expansion maps the escaped terms `horse` and `horses` to the
same fragment `horse[s]*` (Search.py lines 264-267), so (with the identity
synonym table) both query terms compile to the identical clause pattern
string; and that pattern — modelled by `tryMatchAt` for the stem `horse` —
matches every whole-word occurrence of `horse` and every whole-word
occurrence of `horses` in a document. -/
theorem C9_horse_horses_same_pattern :
    (expandEquivalencies (reEscape "horse".data) = "horse[s]*".data ∧
     expandEquivalencies (reEscape "horses".data) = "horse[s]*".data ∧
     clauseRegex expandId "horse".data = clauseRegex expandId "horses".data) ∧
    (∀ (doc : List Char) (i : Nat),
      sliceN doc i (i + 5) = "horse".data →
      (i = 0 ∨ (i - 1 < doc.length ∧ charAtN doc (i - 1) ∈ wordBoundaryChars)) →
      (i + 5 = doc.length ∨
        (i + 5 < doc.length ∧ charAtN doc (i + 5) ∈ wordBoundaryChars)) →
      ∃ e, tryMatchAt "horse".data doc (if i = 0 then 0 else i - 1) doc.length = some e) ∧
    (∀ (doc : List Char) (i : Nat),
      sliceN doc i (i + 6) = "horses".data →
      (i = 0 ∨ (i - 1 < doc.length ∧ charAtN doc (i - 1) ∈ wordBoundaryChars)) →
      (i + 6 = doc.length ∨
        (i + 6 < doc.length ∧ charAtN doc (i + 6) ∈ wordBoundaryChars)) →
      ∃ e, tryMatchAt "horse".data doc (if i = 0 then 0 else i - 1) doc.length = some e) := by
  refine ⟨⟨by rfl, by rfl, by rfl⟩, ?_, ?_⟩
  · intro doc i hs hleft hright
    have hlen5 : i + 5 ≤ doc.length := by
      have := congrArg List.length hs
      simp [sliceN] at this
      omega
    refine ⟨if i + 5 = doc.length then i + 5 else i + 6, ?_⟩
    apply tryMatch_horse_left doc i doc.length _ (tryCore_horse doc i hs hright)
    rcases hleft with h0 | ⟨hlt, hmem⟩
    · exact Or.inl h0
    · exact Or.inr ⟨by omega, hmem⟩
  · intro doc i hs hleft hright
    have hlen6 : i + 6 ≤ doc.length := by
      have := congrArg List.length hs
      simp [sliceN] at this
      omega
    refine ⟨if i + 6 = doc.length then i + 6 else i + 7, ?_⟩
    apply tryMatch_horse_left doc i doc.length _ (tryCore_horses doc i hs hright)
    rcases hleft with h0 | ⟨hlt, hmem⟩
    · exact Or.inl h0
    · exact Or.inr ⟨by omega, hmem⟩

/-- Witness for C9 over `"a horse and horses here"`: the whole word `horse`
at offset 2 and the whole word `horses` at offset 12 are both matched by the
shared pattern. -/
theorem C9_witness :
    (∃ e, tryMatchAt "horse".data "a horse and horses here".data
      (if (2 : Nat) = 0 then 0 else 2 - 1) "a horse and horses here".data.length =
        some e) ∧
    (∃ e, tryMatchAt "horse".data "a horse and horses here".data
      (if (12 : Nat) = 0 then 0 else 12 - 1) "a horse and horses here".data.length =
        some e) :=
  ⟨C9_horse_horses_same_pattern.2.1 "a horse and horses here".data 2 (by rfl)
      (Or.inr ⟨by decide, by decide⟩) (Or.inr ⟨by decide, by decide⟩),
   C9_horse_horses_same_pattern.2.2 "a horse and horses here".data 12 (by rfl)
      (Or.inr ⟨by decide, by decide⟩) (Or.inr ⟨by decide, by decide⟩)⟩
